import Mathlib

/-!
# Verification of the `hdf5-ext` packet-table and DST layout crates

This development embeds the core of the `hdf5-hl`, `hdf5-dst` and
`hdf5-dst-derive` crates:

* the layout/type-descriptor engine (`hdf5-dst/src/lib.rs` impls of
  `H5TypeUnsized` for `UnsizedSlice`/`UnsizedStr`, and the code generated by
  `hdf5-dst-derive/src/lib.rs`), built on Rust's `core::alloc::Layout`
  (`extend`, `pad_to_align`);
* the `FixedVec` unsized container (crate `dst-container`, an external
  collaborator of this repository, modelled after its documented contract:
  capacity-tracked slots, a valid initialized prefix, `reserve`, `push`,
  `clear`, `set_len`);
* the packet table wrappers in `hdf5-hl/src/pt.rs` and the buffered writer in
  `hdf5-hl/src/pt/buf_writer.rs`, over a model of the external HDF5
  packet-table engine (`H5PTappend`, `H5PTread_packets`, `H5PTget_next`,
  `H5PTget_num_packets`, ...) as an append-only record list with a read
  cursor.
-/

namespace Hdf5Ext

/-! ## Rust `core::alloc::Layout` model

A `Layout` is a `(size, align)` pair of natural numbers.  `extend` and
`pad_to_align` are embedded from their Rust semantics: `extend` places the
next field at the smallest multiple of its alignment at or after the current
size and takes the maximum alignment; `pad_to_align` rounds the size up to a
multiple of the alignment. -/

/-- Round `n` up to the next multiple of `a` (for `a ≥ 1`). -/
def roundUp (n a : Nat) : Nat := (n + a - 1) / a * a

/-- Model of `core::alloc::Layout`: a size and an alignment in bytes. -/
structure RLayout where
  size : Nat
  align : Nat
deriving DecidableEq, Repr

/-- `Layout::new::<()>()`: size 0, alignment 1. -/
def RLayout.unit : RLayout := ⟨0, 1⟩

/-- `Layout::extend`: returns the extended layout and the offset of the
appended field. -/
def RLayout.extend (l next : RLayout) : RLayout × Nat :=
  let offset := roundUp l.size next.align
  (⟨offset + next.size, max l.align next.align⟩, offset)

/-- `Layout::pad_to_align`. -/
def RLayout.padToAlign (l : RLayout) : RLayout :=
  ⟨roundUp l.size l.align, l.align⟩

theorem dvd_roundUp (n a : Nat) : a ∣ roundUp n a :=
  ⟨(n + a - 1) / a, (Nat.mul_comm _ _)⟩

theorem roundUp_zero {a : Nat} (ha : 1 ≤ a) : roundUp 0 a = 0 := by
  unfold roundUp
  have : (0 + a - 1) / a = 0 := Nat.div_eq_of_lt (by omega)
  rw [this, Nat.zero_mul]

theorem roundUp_one (n : Nat) : roundUp n 1 = n := by
  simp [roundUp]

theorem le_roundUp (n : Nat) {a : Nat} (ha : 1 ≤ a) : n ≤ roundUp n a := by
  unfold roundUp
  have hmod : (n + a - 1) % a < a := Nat.mod_lt _ ha
  have hdm := Nat.div_add_mod (n + a - 1) a
  rw [Nat.mul_comm]
  omega

/-! ## The descriptor engine

`FieldInfo` records, for a field of a composite value, its name and the Rust
layout of that field's value (`Layout::for_value(&self.field)`).
`computeFields` is the loop emitted by `map_compound` in
`hdf5-dst-derive/src/lib.rs` (also written out by hand in the
`H5TypeUnsized` impls for `UnsizedSlice`/`UnsizedStr` in
`hdf5-dst/src/lib.rs`): starting from `Layout::new::<()>()`, each field in
declaration order is appended with `Layout::extend`, collecting
`CompoundField { name, offset, index }` entries. -/

/-- A source field of a composite record: its name and the layout of its
value at runtime. -/
structure FieldInfo where
  name : String
  layout : RLayout
deriving DecidableEq, Repr

/-- Model of `hdf5::types::CompoundField` (the type descriptor of the field
itself is irrelevant to the layout claims and omitted). -/
structure CompoundField where
  name : String
  offset : Nat
  index : Nat
deriving DecidableEq, Repr

/-- Model of `hdf5::types::CompoundType`. -/
structure CompoundType where
  fields : List CompoundField
  size : Nat
deriving DecidableEq, Repr

/-- The field loop of the generated `type_descriptor` body: fold
`Layout::extend` over the fields in declaration order, collecting each
field's offset and index.  Returns the collected compound fields and the
unpadded accumulated layout. -/
def computeFields : List FieldInfo → Nat → RLayout → List CompoundField × RLayout
  | [], _, l => ([], l)
  | f :: fs, i, l =>
      let (l', off) := RLayout.extend l f.layout
      let (cfs, lf) := computeFields fs (i + 1) l'
      (⟨f.name, off, i⟩ :: cfs, lf)

/-- The whole generated `type_descriptor` body: run the field loop from
`Layout::new::<()>()`, then `pad_to_align`; the compound descriptor's size is
the padded layout's size.  Returns the descriptor together with the final
`layout` variable (used by the `debug_assert_eq!`). -/
def typeDescriptorCompound (fs : List FieldInfo) : CompoundType × RLayout :=
  let (cfs, l) := computeFields fs 0 RLayout.unit
  let lp := l.padToAlign
  (⟨cfs, lp.size⟩, lp)

/-- `Layout::for_value` on a `repr(C)` struct value, per the Rust reference's
`repr(C)` algorithm: place each field at the next multiple of its alignment,
accumulate the maximal alignment, and finally round the size up to the
alignment. -/
def reprCLayoutAux : List RLayout → RLayout → RLayout
  | [], acc => acc.padToAlign
  | f :: fs, acc => reprCLayoutAux fs ⟨roundUp acc.size f.align + f.size, max acc.align f.align⟩

/-- `Layout::for_value(self)` for a `repr(C)` struct whose fields have the
given layouts. -/
def reprCLayout (fs : List RLayout) : RLayout := reprCLayoutAux fs RLayout.unit

/-- The `debug_assert_eq!(layout, Layout::for_value(self))` emitted at the end
of every generated `type_descriptor` body. -/
def typeDescriptorAssert (fs : List FieldInfo) : Bool :=
  (typeDescriptorCompound fs).2 = reprCLayout (fs.map FieldInfo.layout)

/-- `Layout::for_value` of a slice `[T]` with `n` elements, where `t` is the
element type's layout. -/
def sliceLayout (t : RLayout) (n : Nat) : RLayout := ⟨n * t.size, t.align⟩

/-- `Layout::for_value` of a `str` with `n` bytes. -/
def strLayout (n : Nat) : RLayout := ⟨n, 1⟩

/-- The fields walked by `H5TypeUnsized for UnsizedSlice<H, T>`: the header,
then the dynamic tail slice of runtime length `n`. -/
def unsizedSliceFields (h t : RLayout) (n : Nat) : List FieldInfo :=
  [⟨"header", h⟩, ⟨"slice", sliceLayout t n⟩]

/-- The fields walked by `H5TypeUnsized for UnsizedStr<H>`: the header, then
the dynamic tail string of runtime length `n`. -/
def unsizedStrFields (h : RLayout) (n : Nat) : List FieldInfo :=
  [⟨"header", h⟩, ⟨"str", strLayout n⟩]

/-- The true runtime footprint of a dynamic record with header layout `h` and
a tail of `n` elements of layout `t`: the aligned header size plus tail
length times element size, rounded up to the record's alignment. -/
def dynRecordFootprint (h t : RLayout) (n : Nat) : Nat :=
  roundUp (roundUp h.size t.align + n * t.size) (max h.align t.align)

theorem computeFields_snd_padToAlign (fs : List FieldInfo) (i : Nat) (l : RLayout) :
    ((computeFields fs i l).2).padToAlign = reprCLayoutAux (fs.map FieldInfo.layout) l := by
  induction fs generalizing i l with
  | nil => rfl
  | cons f fs ih =>
      simp only [computeFields, RLayout.extend, List.map_cons, reprCLayoutAux]
      exact ih _ _

theorem typeDescriptorAssert_true (fs : List FieldInfo) : typeDescriptorAssert fs = true := by
  have h := computeFields_snd_padToAlign fs 0 RLayout.unit
  simp only [typeDescriptorAssert, typeDescriptorCompound, reprCLayout, decide_eq_true_eq]
  exact h

theorem computeFields_offsets_mono (fs : List FieldInfo) (i : Nat) (l : RLayout)
    (ha : ∀ f ∈ fs, 1 ≤ f.layout.align) :
    (∀ o ∈ (computeFields fs i l).1.map CompoundField.offset, l.size ≤ o) ∧
      ((computeFields fs i l).1.map CompoundField.offset).Pairwise (· ≤ ·) := by
  induction fs generalizing i l with
  | nil => simp [computeFields]
  | cons f fs ih =>
      have hf : 1 ≤ f.layout.align := ha f (List.mem_cons_self _ _)
      have ha' : ∀ g ∈ fs, 1 ≤ g.layout.align := fun g hg => ha g (List.mem_cons_of_mem _ hg)
      have hoff : l.size ≤ roundUp l.size f.layout.align := le_roundUp _ hf
      obtain ⟨ihLe, ihPw⟩ :=
        ih (i + 1) ⟨roundUp l.size f.layout.align + f.layout.size,
          max l.align f.layout.align⟩ ha'
      simp only [computeFields, RLayout.extend, List.map_cons] at *
      constructor
      · intro o ho
        rcases List.mem_cons.mp ho with rfl | ho
        · exact hoff
        · exact le_trans (le_trans hoff (Nat.le_add_right _ _)) (ihLe o ho)
      · refine List.pairwise_cons.mpr ⟨fun o ho => ?_, ihPw⟩
        exact le_trans (Nat.le_add_right _ _) (ihLe o ho)

theorem computeFields_offsets_dvd (fs : List FieldInfo) (i : Nat) (l : RLayout) :
    ∀ p ∈ (computeFields fs i l).1.zip fs, p.2.layout.align ∣ p.1.offset := by
  induction fs generalizing i l with
  | nil => simp [computeFields]
  | cons f fs ih =>
      simp only [computeFields, RLayout.extend, List.zip_cons_cons, List.mem_cons]
      rintro p (rfl | hp)
      · exact dvd_roundUp _ _
      · exact ih _ _ p hp

/-- C5: for every ordered field list (with positive field alignments, as every
Rust alignment is), the compound descriptor computed by the layout engine has
offsets non-decreasing in declaration order, each offset a multiple of its
field's alignment, and a final padded size that is a multiple of the
compound's own alignment. -/
theorem spec_c5_layout_invariants (fs : List FieldInfo)
    (ha : ∀ f ∈ fs, 1 ≤ f.layout.align) :
    ((typeDescriptorCompound fs).1.fields.map CompoundField.offset).Pairwise (· ≤ ·) ∧
      (∀ p ∈ (typeDescriptorCompound fs).1.fields.zip fs, p.2.layout.align ∣ p.1.offset) ∧
      (typeDescriptorCompound fs).2.align ∣ (typeDescriptorCompound fs).1.size := by
  refine ⟨?_, ?_, ?_⟩
  · exact (computeFields_offsets_mono fs 0 RLayout.unit ha).2
  · exact computeFields_offsets_dvd fs 0 RLayout.unit
  · exact dvd_roundUp _ _

/-- C5 witness: the invariants at a concrete three-field record
(`i32`, `i64`, tail of three `f32`). -/
theorem spec_c5_layout_invariants_witness :
    let fs : List FieldInfo :=
      [⟨"field1", ⟨4, 4⟩⟩, ⟨"field2", ⟨8, 8⟩⟩, ⟨"slice", sliceLayout ⟨4, 4⟩ 3⟩]
    ((typeDescriptorCompound fs).1.fields.map CompoundField.offset).Pairwise (· ≤ ·) ∧
      (∀ p ∈ (typeDescriptorCompound fs).1.fields.zip fs, p.2.layout.align ∣ p.1.offset) ∧
      (typeDescriptorCompound fs).2.align ∣ (typeDescriptorCompound fs).1.size :=
  spec_c5_layout_invariants
    [⟨"field1", ⟨4, 4⟩⟩, ⟨"field2", ⟨8, 8⟩⟩, ⟨"slice", sliceLayout ⟨4, 4⟩ 3⟩]
    (by decide)

/-- C4: for the composite record shapes built by the descriptor engine —
`UnsizedSlice` (header then tail slice) and `UnsizedStr` (header then tail
string) at every runtime tail length — the computed compound descriptor's
padded size equals the record's true runtime footprint (the aligned header
size plus tail length times element size, rounded up to the record's
alignment); the `debug_assert_eq!` comparing the computed layout against
`Layout::for_value(self)` holds for every field list; and with zero fields
the result is size 0, alignment 1. -/
theorem spec_c4_descriptor_footprint (h t : RLayout)
    (hh : 1 ≤ h.align) (ht : 1 ≤ t.align) :
    (∀ n,
        (typeDescriptorCompound (unsizedSliceFields h t n)).1.size =
            dynRecordFootprint h t n ∧
          (typeDescriptorCompound (unsizedStrFields h n)).1.size =
            roundUp (h.size + n) h.align) ∧
      (∀ fs : List FieldInfo, typeDescriptorAssert fs = true) ∧
      (typeDescriptorCompound []).2 = ⟨0, 1⟩ := by
  refine ⟨fun n => ⟨?_, ?_⟩, typeDescriptorAssert_true, ?_⟩
  · simp only [typeDescriptorCompound, unsizedSliceFields, computeFields, RLayout.extend,
      RLayout.padToAlign, sliceLayout, dynRecordFootprint, RLayout.unit, roundUp_zero hh,
      Nat.zero_add, Nat.max_eq_right hh]
  · simp only [typeDescriptorCompound, unsizedStrFields, computeFields, RLayout.extend,
      RLayout.padToAlign, strLayout, RLayout.unit, roundUp_zero hh, Nat.zero_add,
      Nat.max_eq_right hh, roundUp_one, Nat.max_eq_left hh]
  · simp [typeDescriptorCompound, computeFields, RLayout.padToAlign, RLayout.unit, roundUp]

/-- C4 witness: header `(i32, i64)`-style layout `(16, 8)`, tail element
`f32` layout `(4, 4)`, tail length 3 (and the other conjuncts at the same
instance). -/
theorem spec_c4_descriptor_footprint_witness :
    (∀ n,
        (typeDescriptorCompound (unsizedSliceFields ⟨16, 8⟩ ⟨4, 4⟩ n)).1.size =
            dynRecordFootprint ⟨16, 8⟩ ⟨4, 4⟩ n ∧
          (typeDescriptorCompound (unsizedStrFields ⟨16, 8⟩ n)).1.size =
            roundUp (16 + n) 8) ∧
      (∀ fs : List FieldInfo, typeDescriptorAssert fs = true) ∧
      (typeDescriptorCompound []).2 = ⟨0, 1⟩ :=
  spec_c4_descriptor_footprint ⟨16, 8⟩ ⟨4, 4⟩ (by decide) (by decide)

/-! ## The `FixedVec` unsized container

`FixedVec<T>` (crate `dst-container`, the `UnsizedContainer` of the spec, an
external collaborator of this repository) owns a contiguous allocation of
`capacity` fixed-stride slots plus a valid-prefix `length`.  We model the
allocation as a list of slots, a slot being `some x` when initialized and
`none` when uninitialized; `len` is the valid-prefix length.  Raw contiguous
writes through a pointer to slot `pos` (as performed by the engine's bulk
reads) are modelled by `writeAt`, which splices the written elements over the
slots starting at `pos`. -/

/-- Model of `dst_container::FixedVec<T>`: `slots` is the backing allocation
(capacity = `slots.length`), `len` the initialized prefix length. -/
structure FixedVec (α : Type) where
  slots : List (Option α)
  len : Nat
deriving DecidableEq, Repr

namespace FixedVec

/-- `FixedVec::with_capacity`: `capacity` uninitialized slots, length 0. -/
def withCapacity (α : Type) (cap : Nat) : FixedVec α :=
  ⟨List.replicate cap none, 0⟩

/-- The initialized elements (the valid prefix), in order. -/
def elems (v : FixedVec α) : List α := (v.slots.take v.len).filterMap id

/-- Well-formedness: the valid prefix fits in the allocation and every slot
in it is initialized. -/
def Wf (v : FixedVec α) : Prop :=
  v.len ≤ v.slots.length ∧ ∀ o ∈ v.slots.take v.len, o.isSome

/-- `FixedVec::reserve`: grow the backing storage so at least `len + n`
elements fit; existing slots are preserved; never shrinks. -/
def reserve (v : FixedVec α) (n : Nat) : FixedVec α :=
  if v.len + n ≤ v.slots.length then v
  else ⟨v.slots ++ List.replicate (v.len + n - v.slots.length) none, v.len⟩

/-- A raw contiguous write of `xs` starting at slot `pos` (the engine writing
records through a pointer to that slot). -/
def writeAt (slots : List (Option α)) (pos : Nat) (xs : List α) : List (Option α) :=
  slots.take pos ++ xs.map some ++ slots.drop (pos + xs.length)

/-- `FixedVec::push_with`/`push_clone`: initialize the next slot (growing by
one if full) and advance the valid prefix. -/
def push (v : FixedVec α) (x : α) : FixedVec α :=
  let v' := if v.slots.length ≤ v.len then v.reserve 1 else v
  ⟨writeAt v'.slots v'.len [x], v'.len + 1⟩

/-- `FixedVec::clear`: drop all initialized elements, reset the length,
retain the capacity. -/
def clear (v : FixedVec α) : FixedVec α :=
  ⟨List.replicate v.slots.length none, 0⟩

/-- `FixedVec::set_len` (unsafe escape hatch used by the bulk-read paths). -/
def setLen (v : FixedVec α) (n : Nat) : FixedVec α :=
  ⟨v.slots, n⟩

@[simp] theorem len_withCapacity (α : Type) (cap : Nat) :
    (withCapacity α cap).len = 0 := rfl

@[simp] theorem elems_withCapacity (α : Type) (cap : Nat) :
    (withCapacity α cap).elems = [] := by
  simp [withCapacity, elems]

theorem wf_withCapacity (α : Type) (cap : Nat) : (withCapacity α cap).Wf := by
  constructor
  · simp [withCapacity]
  · simp [withCapacity]

@[simp] theorem len_reserve (v : FixedVec α) (n : Nat) : (v.reserve n).len = v.len := by
  unfold reserve
  split <;> rfl

theorem slots_reserve_take (v : FixedVec α) (n : Nat) {m : Nat} (hm : m ≤ v.slots.length) :
    (v.reserve n).slots.take m = v.slots.take m := by
  unfold reserve
  split
  · rfl
  · exact List.take_append_of_le_length hm

theorem length_slots_reserve (v : FixedVec α) (n : Nat) :
    (v.reserve n).slots.length = max v.slots.length (v.len + n) := by
  unfold reserve
  split <;> simp <;> omega

theorem elems_reserve (v : FixedVec α) (hwf : v.Wf) (n : Nat) :
    (v.reserve n).elems = v.elems := by
  unfold elems
  rw [len_reserve, slots_reserve_take v n hwf.1]

theorem wf_reserve (v : FixedVec α) (hwf : v.Wf) (n : Nat) : (v.reserve n).Wf := by
  constructor
  · rw [len_reserve, length_slots_reserve]
    omega
  · intro o ho
    rw [len_reserve, slots_reserve_take v n hwf.1] at ho
    exact hwf.2 o ho

theorem length_writeAt (slots : List (Option α)) (pos : Nat) (xs : List α)
    (h : pos + xs.length ≤ slots.length) :
    (writeAt slots pos xs).length = slots.length := by
  simp only [writeAt, List.length_append, List.length_take, List.length_map,
    List.length_drop]
  omega

theorem take_writeAt_left (slots : List (Option α)) (pos : Nat) (xs : List α)
    (h : pos ≤ slots.length) :
    (writeAt slots pos xs).take pos = slots.take pos := by
  unfold writeAt
  rw [List.append_assoc, List.take_append_of_le_length (by simp; omega),
    List.take_take, Nat.min_self]

theorem take_writeAt (slots : List (Option α)) (pos : Nat) (xs : List α)
    (h : pos ≤ slots.length) :
    (writeAt slots pos xs).take (pos + xs.length) = slots.take pos ++ xs.map some := by
  unfold writeAt
  rw [List.append_assoc, List.take_append_eq_append_take]
  have hA : (slots.take pos).length = pos := by
    rw [List.length_take]
    omega
  rw [List.take_of_length_le (by rw [hA]; omega), hA]
  congr 1
  rw [List.take_append_eq_append_take]
  have hB : (xs.map some).length = xs.length := by simp
  rw [List.take_of_length_le (by rw [hB]; omega), hB]
  have hz : pos + xs.length - pos - xs.length = 0 := by omega
  rw [hz, List.take_zero, List.append_nil]

theorem filterMap_id_map_some (xs : List α) : (xs.map some).filterMap id = xs := by
  rw [List.filterMap_map]
  simp

theorem length_filterMap_of_isSome (l : List (Option α)) (h : ∀ o ∈ l, o.isSome) :
    (l.filterMap id).length = l.length := by
  induction l with
  | nil => rfl
  | cons o l ih =>
      have ho : o.isSome := h o (List.mem_cons_self _ _)
      obtain ⟨x, rfl⟩ := Option.isSome_iff_exists.mp ho
      simp only [List.filterMap_cons, id, List.length_cons]
      rw [ih fun o ho => h o (List.mem_cons_of_mem _ ho)]

theorem length_elems (v : FixedVec α) (hwf : v.Wf) : v.elems.length = v.len := by
  unfold elems
  have h1 := hwf.1
  rw [length_filterMap_of_isSome _ hwf.2, List.length_take]
  omega

theorem push_spec (v : FixedVec α) (hwf : v.Wf) (x : α) :
    (v.push x).len = v.len + 1 ∧ (v.push x).elems = v.elems ++ [x] ∧ (v.push x).Wf := by
  unfold push
  set v' := if v.slots.length ≤ v.len then v.reserve 1 else v with hv'
  have hbase : v'.len = v.len ∧ v'.elems = v.elems ∧ v'.Wf ∧ v.len < v'.slots.length := by
    rw [hv']
    split
    · refine ⟨len_reserve v 1, elems_reserve v hwf 1, wf_reserve v hwf 1, ?_⟩
      rw [length_slots_reserve]
      exact lt_of_lt_of_le (Nat.lt_succ_self _) (le_max_right _ _)
    · exact ⟨rfl, rfl, hwf, by omega⟩
  obtain ⟨hlen, helems, hwf', hlt⟩ := hbase
  have hle : v'.len ≤ v'.slots.length := by omega
  have htake : (writeAt v'.slots v'.len [x]).take (v'.len + 1) =
      v'.slots.take v'.len ++ [some x] := by
    have := take_writeAt v'.slots v'.len [x] hle
    simpa using this
  refine ⟨by simp [hlen], ?_, ?_, ?_⟩
  · show ((writeAt v'.slots v'.len [x]).take (v'.len + 1)).filterMap id = v.elems ++ [x]
    rw [htake, List.filterMap_append, ← helems]
    rfl
  · show v'.len + 1 ≤ (writeAt v'.slots v'.len [x]).length
    rw [length_writeAt _ _ _ (by simp; omega)]
    omega
  · show ∀ o ∈ (writeAt v'.slots v'.len [x]).take (v'.len + 1), o.isSome
    rw [htake]
    intro o ho
    rcases List.mem_append.mp ho with ho | ho
    · exact hwf'.2 o ho
    · simp only [List.mem_singleton] at ho
      subst ho
      rfl

@[simp] theorem len_clear (v : FixedVec α) : v.clear.len = 0 := rfl

@[simp] theorem elems_clear (v : FixedVec α) : v.clear.elems = [] := by
  simp [clear, elems]

theorem wf_clear (v : FixedVec α) : v.clear.Wf := by
  constructor
  · simp [clear]
  · simp [clear]

end FixedVec

/-! ## The HDF5 packet-table engine model

The `H5PT*` entry points live in the external HDF5 C library (declared in
`hdf5-hl-sys/src/h5pt.rs`, an out-of-scope collaborator per the spec).  A
packet table is an append-only sequence of records with one explicit read
cursor (`index`): `H5PTappend` appends at the end, `H5PTread_packets` reads a
range without touching the cursor (failing when the range exceeds the packet
count), `H5PTget_next` reads at the cursor and advances it only on success,
`H5PTget_num_packets` reports the record count, and
`H5PTcreate_index`/`H5PTset_index` reset/set the cursor. -/

/-- The state of one packet table held by the engine: its records and its
read cursor. -/
structure PTState (α : Type) where
  records : List α
  index : Nat
deriving DecidableEq, Repr

/-- `H5PTappend`: append `xs` at the end of the table. -/
def H5PTappend (s : PTState α) (xs : List α) : PTState α :=
  ⟨s.records ++ xs, s.index⟩

/-- `H5PTget_num_packets`. -/
def H5PTget_num_packets (s : PTState α) : Nat := s.records.length

/-- `H5PTread_packets`: read `count` records starting at `start`; fails when
the range exceeds the packet count; never touches the cursor. -/
def H5PTread_packets (s : PTState α) (start count : Nat) : Except String (List α) :=
  if start + count ≤ s.records.length then
    .ok ((s.records.drop start).take count)
  else
    .error "H5PTread_packets failed"

/-- `H5PTget_next`: read `count` records at the cursor, advancing the cursor
only on success. -/
def H5PTget_next (s : PTState α) (count : Nat) : PTState α × Except String (List α) :=
  if s.index + count ≤ s.records.length then
    (⟨s.records, s.index + count⟩, .ok ((s.records.drop s.index).take count))
  else
    (s, .error "H5PTget_next failed")

/-- `H5PTcreate_index`: reset the cursor to 0. -/
def H5PTcreate_index (s : PTState α) : PTState α := ⟨s.records, 0⟩

/-- `H5PTset_index`. -/
def H5PTset_index (s : PTState α) (i : Nat) : PTState α := ⟨s.records, i⟩

/-- A freshly created packet table: no packets, cursor 0. -/
def freshTable (α : Type) : PTState α := ⟨[], 0⟩

/-! ## `PacketTable` wrappers (`hdf5-hl/src/pt.rs`) -/

namespace PacketTable

/-- `PacketTable::push`: one record through `H5PTappend`. -/
def push (s : PTState α) (v : α) : PTState α := H5PTappend s [v]

/-- `PacketTable::append`: a slice through `H5PTappend`. -/
def append (s : PTState α) (xs : List α) : PTState α := H5PTappend s xs

/-- `PacketTable::append_unsized`: `vec.len()` records starting at the
container's base pointer, i.e. the container's initialized elements. -/
def appendUnsized (s : PTState α) (vec : FixedVec α) : PTState α :=
  H5PTappend s vec.elems

/-- `PacketTable::read`: takes `&self`; the handle's state (in particular the
cursor) after the call is unchanged, paired with the read result. -/
def read (s : PTState α) (start count : Nat) : PTState α × Except String (List α) :=
  (s, H5PTread_packets s start count)

/-- `PacketTable::read_next`: `H5PTget_next`. -/
def readNext (s : PTState α) (count : Nat) : PTState α × Except String (List α) :=
  H5PTget_next s count

/-- `PacketTable::read_unsized_impl`: remember the old length, reserve room
for `len` more elements, let the engine write `len` records at slot
`old_len` (`eng` is the engine outcome), and only on success `set_len` to
`old_len + len`. -/
def readUnsizedImpl (len : Nat) (buf : FixedVec α) (eng : Except String (List α)) :
    FixedVec α × Except String Unit :=
  let oldLen := buf.len
  let buf' := buf.reserve len
  match eng with
  | .error e => (buf', .error e)
  | .ok xs => (⟨FixedVec.writeAt buf'.slots oldLen xs, oldLen + len⟩, .ok ())

/-- `PacketTable::read_unsized`: `read_unsized_impl` with
`H5PTread_packets` as the engine callback (state untouched). -/
def readUnsized (s : PTState α) (start len : Nat) (buf : FixedVec α) :
    FixedVec α × Except String Unit :=
  readUnsizedImpl len buf (H5PTread_packets s start len)

/-- `PacketTable::read_next_unsized`: `read_unsized_impl` with
`H5PTget_next` as the engine callback. -/
def readNextUnsized (s : PTState α) (len : Nat) (buf : FixedVec α) :
    PTState α × FixedVec α × Except String Unit :=
  let (s', r) := H5PTget_next s len
  (s', readUnsizedImpl len buf r)

end PacketTable

theorem foldl_push_eq_append (s : PTState α) (rs : List α) :
    rs.foldl PacketTable.push s = PacketTable.append s rs := by
  induction rs generalizing s with
  | nil =>
      cases s
      simp [PacketTable.append, H5PTappend]
  | cons x rs ih =>
      simp only [List.foldl_cons, ih]
      cases s
      simp [PacketTable.push, PacketTable.append, H5PTappend]

theorem readUnsizedImpl_ok (len : Nat) (buf : FixedVec α) (hwf : buf.Wf)
    (xs : List α) (hxs : xs.length = len) :
    (PacketTable.readUnsizedImpl len buf (.ok xs)).1.elems = buf.elems ++ xs ∧
      (PacketTable.readUnsizedImpl len buf (.ok xs)).1.len = buf.len + len ∧
      (PacketTable.readUnsizedImpl len buf (.ok xs)).1.Wf ∧
      (PacketTable.readUnsizedImpl len buf (.ok xs)).2 = .ok () := by
  subst hxs
  have hwf' := FixedVec.wf_reserve buf hwf xs.length
  have hlen' : (buf.reserve xs.length).len = buf.len := FixedVec.len_reserve buf xs.length
  have hcap : buf.len + xs.length ≤ (buf.reserve xs.length).slots.length := by
    rw [FixedVec.length_slots_reserve]
    exact le_max_right _ _
  have hle : buf.len ≤ (buf.reserve xs.length).slots.length := by omega
  have htake :
      (FixedVec.writeAt (buf.reserve xs.length).slots buf.len xs).take (buf.len + xs.length) =
        (buf.reserve xs.length).slots.take buf.len ++ xs.map some :=
    FixedVec.take_writeAt _ _ _ hle
  refine ⟨?_, rfl, ⟨?_, ?_⟩, rfl⟩
  · show ((FixedVec.writeAt (buf.reserve xs.length).slots buf.len xs).take
        (buf.len + xs.length)).filterMap id = buf.elems ++ xs
    rw [htake, List.filterMap_append, FixedVec.filterMap_id_map_some]
    have helems : ((buf.reserve xs.length).slots.take buf.len).filterMap id = buf.elems := by
      have h := FixedVec.elems_reserve buf hwf xs.length
      unfold FixedVec.elems at h
      rw [hlen'] at h
      exact h
    rw [helems]
  · show buf.len + xs.length ≤
        (FixedVec.writeAt (buf.reserve xs.length).slots buf.len xs).length
    rw [FixedVec.length_writeAt _ _ _ (by omega)]
    exact hcap
  · show ∀ o ∈ (FixedVec.writeAt (buf.reserve xs.length).slots buf.len xs).take
        (buf.len + xs.length), o.isSome
    rw [htake]
    intro o ho
    rcases List.mem_append.mp ho with ho | ho
    · have h2 := hwf'.2
      rw [hlen'] at h2
      exact h2 o ho
    · obtain ⟨x, _, rfl⟩ := List.mem_map.mp ho
      rfl

theorem readUnsizedImpl_error (len : Nat) (buf : FixedVec α) (hwf : buf.Wf) (e : String) :
    (PacketTable.readUnsizedImpl len buf (.error e)).1.len = buf.len ∧
      (PacketTable.readUnsizedImpl len buf (.error e)).1.elems = buf.elems ∧
      buf.slots.length ≤ (PacketTable.readUnsizedImpl len buf (.error e)).1.slots.length ∧
      (PacketTable.readUnsizedImpl len buf (.error e)).1.Wf ∧
      (PacketTable.readUnsizedImpl len buf (.error e)).2 = .error e := by
  refine ⟨FixedVec.len_reserve buf len, FixedVec.elems_reserve buf hwf len, ?_,
    FixedVec.wf_reserve buf hwf len, rfl⟩
  show buf.slots.length ≤ (buf.reserve len).slots.length
  rw [FixedVec.length_slots_reserve]
  exact le_max_left _ _

/-- A dynamic record: fixed header bytes followed by variable-length tail
bytes. -/
structure DynRecord where
  header : List Nat
  tail : List Nat
deriving DecidableEq, Repr

/-- C1: for every N in {0, 1, 6, 1000}, writing N dynamic records into a
freshly created packet table — via `append`, via repeated `push` (which
builds the same table), or via `append_unsized` from a container holding
them — and reading them back with `read(0, N)` or `read_unsized(0, N, into)`
yields records whose header and tail bytes are identical to the originals. -/
theorem spec_c1_roundtrip (N : Nat) (hN : N = 0 ∨ N = 1 ∨ N = 6 ∨ N = 1000)
    (rs : List DynRecord) (hlen : rs.length = N) :
    (PacketTable.read (PacketTable.append (freshTable DynRecord) rs) 0 N).2 = .ok rs ∧
      rs.foldl PacketTable.push (freshTable DynRecord) =
        PacketTable.append (freshTable DynRecord) rs ∧
      (∀ buf : FixedVec DynRecord, buf.elems = rs →
        (PacketTable.read (PacketTable.appendUnsized (freshTable DynRecord) buf) 0 N).2 =
          .ok rs) ∧
      (PacketTable.readUnsized (PacketTable.append (freshTable DynRecord) rs) 0 N
          (FixedVec.withCapacity DynRecord 0)).1.elems = rs := by
  have hread : ∀ t : List DynRecord, t.length = N →
      H5PTread_packets (⟨t, 0⟩ : PTState DynRecord) 0 N = .ok t := by
    intro t ht
    show (if 0 + N ≤ t.length then Except.ok ((t.drop 0).take N)
        else Except.error "H5PTread_packets failed") = Except.ok t
    rw [if_pos (by omega), List.drop_zero, ← ht, List.take_length]
  have happ : PacketTable.append (freshTable DynRecord) rs = ⟨rs, 0⟩ := by
    simp [PacketTable.append, H5PTappend, freshTable]
  refine ⟨?_, foldl_push_eq_append _ _, ?_, ?_⟩
  · rw [happ]
    exact hread rs hlen
  · intro buf hb
    have : PacketTable.appendUnsized (freshTable DynRecord) buf = ⟨rs, 0⟩ := by
      simp [PacketTable.appendUnsized, H5PTappend, freshTable, hb]
    rw [this]
    exact hread rs hlen
  · show (PacketTable.readUnsizedImpl N (FixedVec.withCapacity DynRecord 0)
        (H5PTread_packets (PacketTable.append (freshTable DynRecord) rs) 0 N)).1.elems = rs
    rw [happ, hread rs hlen]
    have h := (readUnsizedImpl_ok N (FixedVec.withCapacity DynRecord 0)
      (FixedVec.wf_withCapacity DynRecord 0) rs hlen).1
    rw [h, FixedVec.elems_withCapacity, List.nil_append]

/-- C1 witness: six concrete dynamic records round-trip. -/
theorem spec_c1_roundtrip_witness :
    (PacketTable.read (PacketTable.append (freshTable DynRecord)
        [⟨[1], [1, 1]⟩, ⟨[2], []⟩, ⟨[3], [4]⟩, ⟨[4], [5, 1]⟩, ⟨[5], [4]⟩, ⟨[6], [9]⟩]) 0 6).2 =
      .ok [⟨[1], [1, 1]⟩, ⟨[2], []⟩, ⟨[3], [4]⟩, ⟨[4], [5, 1]⟩, ⟨[5], [4]⟩, ⟨[6], [9]⟩] :=
  (spec_c1_roundtrip 6 (by decide)
    [⟨[1], [1, 1]⟩, ⟨[2], []⟩, ⟨[3], [4]⟩, ⟨[4], [5, 1]⟩, ⟨[5], [4]⟩, ⟨[6], [9]⟩]
    (by decide)).1

/-! ## Sequential reads and the iterator -/

/-- `k` successive calls to `PacketTable::read_next(c)`, collecting the
returned windows (stopping if a call fails). -/
def readNextTimes (c : Nat) : Nat → PTState α → PTState α × List (List α)
  | 0, s => (s, [])
  | k + 1, s =>
      match PacketTable.readNext s c with
      | (s', Except.ok w) =>
          let (s'', ws) := readNextTimes c k s'
          (s'', w :: ws)
      | (s', Except.error _) => (s', [])

theorem readNextTimes_spec (c k : Nat) (s : PTState α)
    (h : s.index + k * c ≤ s.records.length) :
    (readNextTimes c k s).1 = ⟨s.records, s.index + k * c⟩ ∧
      (readNextTimes c k s).2.length = k ∧
      (readNextTimes c k s).2.join = (s.records.drop s.index).take (k * c) := by
  induction k generalizing s with
  | zero =>
      refine ⟨?_, rfl, by simp [readNextTimes]⟩
      show s = _
      simp
  | succ k ih =>
      have hc : s.index + c ≤ s.records.length := by
        have hmul : (k + 1) * c = k * c + c := by ring
        omega
      have hget : PacketTable.readNext s c =
          (⟨s.records, s.index + c⟩, Except.ok ((s.records.drop s.index).take c)) := by
        show (if s.index + c ≤ s.records.length then _ else _) = _
        rw [if_pos hc]
      have h' : (⟨s.records, s.index + c⟩ : PTState α).index + k * c ≤
          (⟨s.records, s.index + c⟩ : PTState α).records.length := by
        show s.index + c + k * c ≤ s.records.length
        have hmul : (k + 1) * c = k * c + c := by ring
        omega
      obtain ⟨ih1, ih2, ih3⟩ := ih _ h'
      simp only [readNextTimes, hget, ih1]
      refine ⟨?_, by simp [ih2], ?_⟩
      · have hmul : s.index + c + k * c = s.index + (k + 1) * c := by ring
        rw [hmul]
      · show (s.records.drop s.index).take c ++ (readNextTimes c k _).2.join = _
        rw [ih3]
        show (s.records.drop s.index).take c ++
            ((s.records.drop (s.index + c)).take (k * c)) =
          (s.records.drop s.index).take ((k + 1) * c)
        have hmul : (k + 1) * c = c + k * c := by ring
        rw [hmul, List.take_add, List.drop_drop]

/-- C7: `read(start, count)` never changes the table's read index, while
calling `read_next(count)` k times (from index 0, within bounds) advances the
index by `k * count` and returns k consecutive windows whose concatenation
equals `read(0, k * count)`. -/
theorem spec_c7_cursor_independence (s : PTState α) (k c : Nat)
    (hidx : s.index = 0) (h : k * c ≤ s.records.length) :
    (∀ start count, (PacketTable.read s start count).1 = s) ∧
      (readNextTimes c k s).1 = ⟨s.records, k * c⟩ ∧
      (readNextTimes c k s).2.length = k ∧
      (PacketTable.read s 0 (k * c)).2 = .ok (readNextTimes c k s).2.join := by
  have hb : s.index + k * c ≤ s.records.length := by omega
  obtain ⟨h1, h2, h3⟩ := readNextTimes_spec c k s hb
  refine ⟨fun _ _ => rfl, ?_, h2, ?_⟩
  · rw [h1, hidx, Nat.zero_add]
  · show H5PTread_packets s 0 (k * c) = _
    rw [h3, hidx]
    show (if 0 + k * c ≤ s.records.length then
        Except.ok ((s.records.drop 0).take (k * c)) else _) = _
    rw [if_pos (by omega), List.drop_zero]

/-- C7 witness: six records, three `read_next(2)` calls. -/
theorem spec_c7_cursor_independence_witness :
    let s : PTState Nat := ⟨[1, 1, 4, 5, 1, 4], 0⟩
    (∀ start count, (PacketTable.read s start count).1 = s) ∧
      (readNextTimes 2 3 s).1 = ⟨s.records, 3 * 2⟩ ∧
      (readNextTimes 2 3 s).2.length = 3 ∧
      (PacketTable.read s 0 (3 * 2)).2 = .ok (readNextTimes 2 3 s).2.join :=
  spec_c7_cursor_independence ⟨[1, 1, 4, 5, 1, 4], 0⟩ 3 2 rfl (by decide)

/-- One step of the iterator created by `PacketTable::iter`: re-check the
current packet count, and when the private cursor is below it, read one
packet at the cursor and advance the cursor.  The table handle (including
its `index`) is returned untouched. -/
def PacketTable.iterStep (s : PTState α) (c : Nat) : PTState α × Option (α × Nat) :=
  if c < H5PTget_num_packets s then
    match H5PTread_packets s c 1 with
    | Except.ok (x :: _) => (s, some (x, c + 1))
    | _ => (s, none)
  else (s, none)

/-- Run the iterator from cursor `c` with the given fuel, collecting the
yielded packets. -/
def iterCollect (s : PTState α) : Nat → Nat → List α
  | _, 0 => []
  | c, fuel + 1 =>
      match (PacketTable.iterStep s c).2 with
      | some (x, c') => x :: iterCollect s c' fuel
      | none => []

theorem iterStep_lt (s : PTState α) (c : Nat) (h : c < s.records.length) :
    PacketTable.iterStep s c = (s, some (s.records.get ⟨c, h⟩, c + 1)) := by
  unfold PacketTable.iterStep
  rw [if_pos (show c < H5PTget_num_packets s from h)]
  have hread : H5PTread_packets s c 1 = .ok [s.records.get ⟨c, h⟩] := by
    show (if c + 1 ≤ s.records.length then Except.ok ((s.records.drop c).take 1) else _) = _
    rw [if_pos (by omega)]
    rw [List.drop_eq_getElem_cons h]
    rfl
  rw [hread]

theorem iterStep_ge (s : PTState α) (c : Nat) (h : s.records.length ≤ c) :
    PacketTable.iterStep s c = (s, none) := by
  unfold PacketTable.iterStep
  rw [if_neg (show ¬c < H5PTget_num_packets s by
    show ¬c < s.records.length
    omega)]

theorem iterCollect_drop (s : PTState α) (fuel c : Nat)
    (h : s.records.length - c ≤ fuel) :
    iterCollect s c fuel = s.records.drop c := by
  induction fuel generalizing c with
  | zero =>
      have : s.records.length ≤ c := by omega
      rw [List.drop_eq_nil_of_le this]
      rfl
  | succ fuel ih =>
      by_cases hc : c < s.records.length
      · rw [show iterCollect s c (fuel + 1) =
            match (PacketTable.iterStep s c).2 with
            | some (x, c') => x :: iterCollect s c' fuel
            | none => [] from rfl]
        rw [iterStep_lt s c hc]
        show s.records.get ⟨c, hc⟩ :: iterCollect s (c + 1) fuel = s.records.drop c
        rw [ih (c + 1) (by omega), List.drop_eq_getElem_cons hc]
        rfl
      · rw [show iterCollect s c (fuel + 1) =
            match (PacketTable.iterStep s c).2 with
            | some (x, c') => x :: iterCollect s c' fuel
            | none => [] from rfl]
        rw [iterStep_ge s c (by omega)]
        rw [List.drop_eq_nil_of_le (by omega)]

/-- C8: each call to `iter` creates a fresh iterator whose private cursor
starts at 0 and never modifies the table handle (in particular its `index`);
run to exhaustion it yields exactly the table's records, its step at cursor =
packet count yields nothing, and because each step re-checks the packet
count, continuing the cursor past the old count after an append through the
same handle observes the newly appended records. -/
theorem spec_c8_iter (s : PTState α) (xs : List α) :
    (∀ c, (PacketTable.iterStep s c).1 = s) ∧
      iterCollect s 0 s.records.length = s.records ∧
      (PacketTable.iterStep s s.records.length).2 = none ∧
      iterCollect (PacketTable.append s xs) s.records.length xs.length = xs := by
  refine ⟨?_, ?_, ?_, ?_⟩
  · intro c
    unfold PacketTable.iterStep
    split
    · split <;> rfl
    · rfl
  · rw [iterCollect_drop s s.records.length 0 (by omega), List.drop_zero]
  · rw [iterStep_ge s s.records.length (le_refl _)]
  · have hlen : (PacketTable.append s xs).records = s.records ++ xs := rfl
    rw [iterCollect_drop _ xs.length s.records.length (by
      rw [hlen, List.length_append]
      omega)]
    rw [hlen, List.drop_left]

/-! ## Container-filling reads -/

theorem H5PTread_packets_ok (s : PTState α) (start len : Nat)
    (h : start + len ≤ s.records.length) :
    H5PTread_packets s start len = .ok ((s.records.drop start).take len) := by
  unfold H5PTread_packets
  rw [if_pos h]

theorem H5PTread_packets_err (s : PTState α) (start len : Nat)
    (h : s.records.length < start + len) :
    H5PTread_packets s start len = .error "H5PTread_packets failed" := by
  unfold H5PTread_packets
  rw [if_neg (by omega)]

theorem length_window (s : PTState α) (start len : Nat)
    (h : start + len ≤ s.records.length) :
    ((s.records.drop start).take len).length = len := by
  rw [List.length_take, List.length_drop]
  omega

theorem H5PTget_next_ok (s : PTState α) (len : Nat)
    (h : s.index + len ≤ s.records.length) :
    H5PTget_next s len =
      (⟨s.records, s.index + len⟩, .ok ((s.records.drop s.index).take len)) := by
  unfold H5PTget_next
  rw [if_pos h]

theorem H5PTget_next_err (s : PTState α) (len : Nat)
    (h : s.records.length < s.index + len) :
    H5PTget_next s len = (s, .error "H5PTget_next failed") := by
  unfold H5PTget_next
  rw [if_neg (by omega)]

/-- `ContainerExt::read` from `hdf5-dst/src/container_ext.rs`: reserve, hand
the engine the container's *base* pointer (`v.as_mut_ptr()`), then
`set_len(v.len() + new_len)`.  `eng` is the outcome of the underlying engine
read (`H5Dread`/`H5Aread`), which on success fills `new_len` contiguous
slots starting at the pointer it was handed. -/
def containerExtRead (v : FixedVec α) (newLen : Nat) (eng : Except String (List α)) :
    FixedVec α × Except String Unit :=
  let v' := v.reserve newLen
  match eng with
  | .error e => (v', .error e)
  | .ok xs => (⟨FixedVec.writeAt v'.slots 0 xs, v'.len + newLen⟩, .ok ())

/-- `ContainerExt::read_unsized` from `hdf5-dst/src/ext.rs`: remember
`old_len`, reserve, hand the engine a pointer to slot `old_len`
(`v.get_unchecked_mut(old_len)`), then `set_len(old_len + new_len)`. -/
def extReadUnsized (v : FixedVec α) (newLen : Nat) (eng : Except String (List α)) :
    FixedVec α × Except String Unit :=
  let oldLen := v.len
  let v' := v.reserve newLen
  match eng with
  | .error e => (v', .error e)
  | .ok xs => (⟨FixedVec.writeAt v'.slots oldLen xs, oldLen + newLen⟩, .ok ())

/-- C9: every container-filling read — `read_unsized(start, len, buffer)`
and `read_next_unsized(len, buffer)` on a packet table, and the dataset read
`ContainerExt::read_unsized` from `hdf5-dst/src/ext.rs` — is append-only and
atomic on error: on success the destination keeps its existing initialized
elements, gains exactly the requested records after them, and its length
grows by exactly the requested count; when the engine read fails the
destination's length and elements are unchanged and only its capacity may
have grown (`read_next_unsized` moreover advances the table's cursor only on
success). -/
theorem spec_c9_read_unsized_atomic (s : PTState α) (buf : FixedVec α)
    (start len : Nat) (hwf : buf.Wf) :
    (start + len ≤ s.records.length →
      (PacketTable.readUnsized s start len buf).2 = .ok () ∧
        (PacketTable.readUnsized s start len buf).1.len = buf.len + len ∧
        (PacketTable.readUnsized s start len buf).1.elems =
          buf.elems ++ (s.records.drop start).take len ∧
        (PacketTable.readUnsized s start len buf).1.Wf) ∧
      (s.records.length < start + len →
        (PacketTable.readUnsized s start len buf).2 = .error "H5PTread_packets failed" ∧
          (PacketTable.readUnsized s start len buf).1.len = buf.len ∧
          (PacketTable.readUnsized s start len buf).1.elems = buf.elems ∧
          buf.slots.length ≤ (PacketTable.readUnsized s start len buf).1.slots.length) ∧
      (s.index + len ≤ s.records.length →
        (PacketTable.readNextUnsized s len buf).2.2 = .ok () ∧
          (PacketTable.readNextUnsized s len buf).2.1.len = buf.len + len ∧
          (PacketTable.readNextUnsized s len buf).2.1.elems =
            buf.elems ++ (s.records.drop s.index).take len ∧
          (PacketTable.readNextUnsized s len buf).2.1.Wf ∧
          (PacketTable.readNextUnsized s len buf).1 = ⟨s.records, s.index + len⟩) ∧
      (s.records.length < s.index + len →
        (PacketTable.readNextUnsized s len buf).2.2 = .error "H5PTget_next failed" ∧
          (PacketTable.readNextUnsized s len buf).2.1.len = buf.len ∧
          (PacketTable.readNextUnsized s len buf).2.1.elems = buf.elems ∧
          buf.slots.length ≤ (PacketTable.readNextUnsized s len buf).2.1.slots.length ∧
          (PacketTable.readNextUnsized s len buf).1 = s) ∧
      (∀ xs : List α, xs.length = len →
        (extReadUnsized buf len (.ok xs)).2 = .ok () ∧
          (extReadUnsized buf len (.ok xs)).1.len = buf.len + len ∧
          (extReadUnsized buf len (.ok xs)).1.elems = buf.elems ++ xs ∧
          (extReadUnsized buf len (.ok xs)).1.Wf) ∧
      (∀ e : String,
        (extReadUnsized buf len (.error e)).2 = .error e ∧
          (extReadUnsized buf len (.error e)).1.len = buf.len ∧
          (extReadUnsized buf len (.error e)).1.elems = buf.elems ∧
          buf.slots.length ≤ (extReadUnsized buf len (.error e)).1.slots.length) := by
  have hext : ∀ eng : Except String (List α),
      extReadUnsized buf len eng = PacketTable.readUnsizedImpl len buf eng := fun _ => rfl
  refine ⟨?_, ?_, ?_, ?_, ?_, ?_⟩
  · intro h
    have hr : PacketTable.readUnsized s start len buf =
        PacketTable.readUnsizedImpl len buf (.ok ((s.records.drop start).take len)) := by
      unfold PacketTable.readUnsized
      rw [H5PTread_packets_ok s start len h]
    obtain ⟨h1, h2, h3, h4⟩ := readUnsizedImpl_ok len buf hwf _ (length_window s start len h)
    rw [hr]
    exact ⟨h4, h2, h1, h3⟩
  · intro h
    have hr : PacketTable.readUnsized s start len buf =
        PacketTable.readUnsizedImpl len buf (.error "H5PTread_packets failed") := by
      unfold PacketTable.readUnsized
      rw [H5PTread_packets_err s start len h]
    obtain ⟨h1, h2, h3, _, h5⟩ := readUnsizedImpl_error len buf hwf "H5PTread_packets failed"
    rw [hr]
    exact ⟨h5, h1, h2, h3⟩
  · intro h
    have hr : PacketTable.readNextUnsized s len buf =
        (⟨s.records, s.index + len⟩,
          PacketTable.readUnsizedImpl len buf (.ok ((s.records.drop s.index).take len))) := by
      unfold PacketTable.readNextUnsized
      rw [H5PTget_next_ok s len h]
    obtain ⟨h1, h2, h3, h4⟩ :=
      readUnsizedImpl_ok len buf hwf _ (length_window s s.index len h)
    rw [hr]
    exact ⟨h4, h2, h1, h3, rfl⟩
  · intro h
    have hr : PacketTable.readNextUnsized s len buf =
        (s, PacketTable.readUnsizedImpl len buf (.error "H5PTget_next failed")) := by
      unfold PacketTable.readNextUnsized
      rw [H5PTget_next_err s len h]
    obtain ⟨h1, h2, h3, _, h5⟩ := readUnsizedImpl_error len buf hwf "H5PTget_next failed"
    rw [hr]
    exact ⟨h5, h1, h2, h3, rfl⟩
  · intro xs hxs
    obtain ⟨h1, h2, h3, h4⟩ := readUnsizedImpl_ok len buf hwf xs hxs
    rw [hext]
    exact ⟨h4, h2, h1, h3⟩
  · intro e
    obtain ⟨h1, h2, h3, _, h5⟩ := readUnsizedImpl_error len buf hwf e
    rw [hext]
    exact ⟨h5, h1, h2, h3⟩

/-- C9 witness: reading packets 1..2 of a three-record table into a
destination already holding one element appends them after it. -/
theorem spec_c9_read_unsized_atomic_witness :
    let s : PTState Nat := ⟨[7, 8, 9], 0⟩
    let buf : FixedVec Nat := ⟨[some 5], 1⟩
    (PacketTable.readUnsized s 1 2 buf).2 = .ok () ∧
      (PacketTable.readUnsized s 1 2 buf).1.len = buf.len + 2 ∧
      (PacketTable.readUnsized s 1 2 buf).1.elems =
        buf.elems ++ (s.records.drop 1).take 2 ∧
      (PacketTable.readUnsized s 1 2 buf).1.Wf := by
  exact (spec_c9_read_unsized_atomic ⟨[7, 8, 9], 0⟩ ⟨[some 5], 1⟩ 1 2
    (by constructor <;> decide)).1 (by decide)

/-! ## Comparing the two `ContainerExt` read implementations (`hdf5-dst`) -/

/-- C10 counterexample: on a destination already holding one element, the
`container_ext.rs` read overwrites it from the base pointer while the
`ext.rs` read appends after it, so the final container states differ. -/
theorem spec_c10_counterexample :
    (containerExtRead (⟨[some 1], 1⟩ : FixedVec Nat) 1 (.ok [2])).1 ≠
      (extReadUnsized (⟨[some 1], 1⟩ : FixedVec Nat) 1 (.ok [2])).1 := by
  decide

/-- C10 amended: the two implementations agree exactly on initially empty
destinations — for every container with `len = 0`, every dataset length and
every engine outcome they produce the same final state; a non-empty
destination separates them. -/
theorem spec_c10_amended (v : FixedVec α) (newLen : Nat)
    (eng : Except String (List α)) (h : v.len = 0) :
    containerExtRead v newLen eng = extReadUnsized v newLen eng := by
  unfold containerExtRead extReadUnsized
  cases eng with
  | error e => rfl
  | ok xs =>
      simp only
      rw [FixedVec.len_reserve, h]

/-- C10 amended witness: an empty destination of capacity 2. -/
theorem spec_c10_amended_witness :
    containerExtRead (⟨[none, none], 0⟩ : FixedVec Nat) 2 (.ok [4, 5]) =
      extReadUnsized (⟨[none, none], 0⟩ : FixedVec Nat) 2 (.ok [4, 5]) :=
  spec_c10_amended ⟨[none, none], 0⟩ 2 (.ok [4, 5]) rfl

/-! ## The packet-table builders (`hdf5-hl/src/pt.rs`)

`PacketTableBuilder::create` first validates the chunk configuration, then
encodes the table name as a C string (failing on an interior NUL byte), and
only then calls `H5PTcreate`.  `PacketTableBuilderTyped::create` first
materializes an engine `Datatype` from the descriptor
(`Datatype::from_descriptor`, an HDF5 library call) and then calls the inner
create.  Each run is modelled as the list of engine calls it performs
together with its outcome; names are byte lists. -/

/-- Model of `hdf5::plist::DatasetCreate`: only its chunk property matters
here. -/
structure DatasetCreate where
  chunk : Option Nat
deriving DecidableEq, Repr

/-- `PacketTableBuilder`: an optional chunk size and an optional property
list. -/
structure PacketTableBuilder where
  chunk : Option Nat
  plist : Option DatasetCreate
deriving DecidableEq, Repr

/-- The error kinds a create can surface. -/
inductive CreateError where
  /-- "Invalid chunk." / "Either plist or chunk need to be set." -/
  | configurationError
  /-- `CString::new` failed: the name has an interior NUL byte. -/
  | nameEncodingError
  /-- an engine failure. -/
  | engineError
deriving DecidableEq, Repr

/-- The engine calls a create can perform. -/
inductive EngineEvent where
  /-- `Datatype::from_descriptor` (creates an engine datatype object). -/
  | mkDatatype
  /-- `H5PTcreate` (creates the table). -/
  | ptCreate
deriving DecidableEq, Repr

/-- The tail of `PacketTableBuilder::create` after the chunk checks:
`CString::new(table_name)` then `H5PTcreate`. -/
def createRest (tableName : List Nat) : List EngineEvent × Except CreateError Unit :=
  if tableName.contains 0 then ([], .error .nameEncodingError)
  else ([EngineEvent.ptCreate], .ok ())

/-- `PacketTableBuilder::create`: if a plist is supplied it must carry a
chunk; otherwise a chunk size must have been set; then encode the name and
call `H5PTcreate`. -/
def PacketTableBuilder.create (b : PacketTableBuilder) (tableName : List Nat) :
    List EngineEvent × Except CreateError Unit :=
  match b.plist with
  | some p =>
      if p.chunk = none then ([], .error .configurationError)
      else createRest tableName
  | none =>
      if b.chunk = none then ([], .error .configurationError)
      else createRest tableName

/-- `PacketTableBuilderTyped::create`: `Datatype::from_descriptor` first
(`dtypeOk` is that engine call's outcome), then the inner create. -/
def typedCreate (b : PacketTableBuilder) (dtypeOk : Bool) (tableName : List Nat) :
    List EngineEvent × Except CreateError Unit :=
  if dtypeOk then
    let (ev, r) := b.create tableName
    (EngineEvent.mkDatatype :: ev, r)
  else ([EngineEvent.mkDatatype], .error .engineError)

theorem builder_create_cases (b : PacketTableBuilder) (tableName : List Nat) :
    ((b.create tableName).1 = [] ∧ (b.create tableName).2 ≠ .ok ()) ∨
      ((b.create tableName).1 = [EngineEvent.ptCreate] ∧
        (b.create tableName).2 = .ok ()) := by
  unfold PacketTableBuilder.create createRest
  cases b.plist with
  | some p =>
      dsimp only
      by_cases h1 : p.chunk = none
      · rw [if_pos h1]
        exact .inl ⟨rfl, fun h => Except.noConfusion h⟩
      · rw [if_neg h1]
        by_cases h2 : tableName.contains 0
        · rw [if_pos h2]
          exact .inl ⟨rfl, fun h => Except.noConfusion h⟩
        · rw [if_neg h2]
          exact .inr ⟨rfl, rfl⟩
  | none =>
      dsimp only
      by_cases h1 : b.chunk = none
      · rw [if_pos h1]
        exact .inl ⟨rfl, fun h => Except.noConfusion h⟩
      · rw [if_neg h1]
        by_cases h2 : tableName.contains 0
        · rw [if_pos h2]
          exact .inl ⟨rfl, fun h => Except.noConfusion h⟩
        · rw [if_neg h2]
          exact .inr ⟨rfl, rfl⟩

/-- C2 counterexample: through the public typed create, a builder with no
chunk configuration surfaces `ConfigurationError` — but only after the
`Datatype::from_descriptor` engine call, so the engine-call trace is not
empty. -/
theorem spec_c2_counterexample :
    (typedCreate ⟨none, none⟩ true [100]).2 = .error .configurationError ∧
      (typedCreate ⟨none, none⟩ true [100]).1 ≠ [] := by
  refine ⟨rfl, ?_⟩
  intro h
  exact List.noConfusion h

/-- C2 amended: when create fails with `ConfigurationError` or
`NameEncodingError`, no table-creating engine call (`H5PTcreate`) is made;
through the inner `PacketTableBuilder::create` the error is surfaced before
any engine call at all, while `PacketTableBuilderTyped::create` first
performs the `Datatype::from_descriptor` engine call. -/
theorem spec_c2_amended (b : PacketTableBuilder) (tableName : List Nat)
    (e : CreateError)
    (he : e = .configurationError ∨ e = .nameEncodingError) :
    ((b.create tableName).2 = .error e → (b.create tableName).1 = []) ∧
      ((typedCreate b true tableName).2 = .error e →
        EngineEvent.ptCreate ∉ (typedCreate b true tableName).1) := by
  obtain ⟨h1, h2⟩ | ⟨h1, h2⟩ := builder_create_cases b tableName
  · refine ⟨fun _ => h1, fun _ => ?_⟩
    show EngineEvent.ptCreate ∉ EngineEvent.mkDatatype :: (b.create tableName).1
    rw [h1]
    intro hmem
    rcases List.mem_cons.mp hmem with h | h
    · exact EngineEvent.noConfusion h
    · exact (List.not_mem_nil _) h
  · refine ⟨fun hr => ?_, fun hr => ?_⟩
    · rw [h2] at hr
      exact Except.noConfusion hr
    · exfalso
      have : (typedCreate b true tableName).2 = .ok () := by
        show (b.create tableName).2 = .ok ()
        exact h2
      rw [this] at hr
      exact Except.noConfusion hr

/-- C2 amended witness: the missing-chunk builder surfaces
`ConfigurationError` from the inner create with an empty engine-call
trace. -/
theorem spec_c2_amended_witness :
    (PacketTableBuilder.create ⟨none, none⟩ [100]).1 = [] :=
  (spec_c2_amended ⟨none, none⟩ [100] .configurationError (Or.inl rfl)).1 rfl

/-- C3 counterexample: a builder that *has* a chunk size but also carries a
plist without a chunk property fails with `ConfigurationError`, contradicting
"whenever the caller has supplied a chunk size, create does not fail with
ConfigurationError". -/
theorem spec_c3_counterexample :
    (PacketTableBuilder.create ⟨some 16, some ⟨none⟩⟩ [100]).2 =
        .error .configurationError ∧
      (⟨some 16, some ⟨none⟩⟩ : PacketTableBuilder).chunk = some 16 :=
  ⟨rfl, rfl⟩

/-- C3 amended: create fails with `ConfigurationError` exactly when either a
plist is supplied whose chunk property is unset (regardless of any chunk
size), or no plist is supplied and no chunk size is set. -/
theorem spec_c3_amended (b : PacketTableBuilder) (tableName : List Nat) :
    (b.create tableName).2 = .error .configurationError ↔
      (∃ p, b.plist = some p ∧ p.chunk = none) ∨
        (b.plist = none ∧ b.chunk = none) := by
  unfold PacketTableBuilder.create createRest
  cases hp : b.plist with
  | some p =>
      dsimp only
      by_cases h1 : p.chunk = none
      · rw [if_pos h1]
        simp [h1]
      · rw [if_neg h1]
        constructor
        · intro h
          by_cases h2 : tableName.contains 0
          · rw [if_pos h2] at h
            exact absurd (Except.error.inj h) (fun he => CreateError.noConfusion he)
          · rw [if_neg h2] at h
            exact Except.noConfusion h
        · rintro (⟨q, hq, hqc⟩ | ⟨hq, _⟩)
          · rw [Option.some.injEq] at hq
            exact absurd (hq ▸ hqc) h1
          · exact Option.noConfusion hq
  | none =>
      dsimp only
      by_cases h1 : b.chunk = none
      · rw [if_pos h1]
        simp [h1]
      · rw [if_neg h1]
        constructor
        · intro h
          by_cases h2 : tableName.contains 0
          · rw [if_pos h2] at h
            exact absurd (Except.error.inj h) (fun he => CreateError.noConfusion he)
          · rw [if_neg h2] at h
            exact Except.noConfusion h
        · rintro (⟨q, hq, _⟩ | ⟨_, hc⟩)
          · exact Option.noConfusion hq
          · exact absurd hc h1

/-! ## The buffered writer (`hdf5-hl/src/pt/buf_writer.rs`)

`PacketTableBufWriter` wraps a table and a `FixedVec` buffer of capacity
`buf_len`.  Each operation below also reports the `append_unsized` batches it
delivered to the table and the number of times the `flush` routine was
invoked. -/

/-- `PacketTableBufWriter`: the wrapped table, the buffer, and the threshold
`buf_len`. -/
structure BufWriter (α : Type) where
  table : PTState α
  buffer : FixedVec α
  bufLen : Nat
deriving DecidableEq, Repr

/-- `PacketTableBufWriter::new`: a buffer of capacity `buf_len`. -/
def BufWriter.new (t : PTState α) (bufLen : Nat) : BufWriter α :=
  ⟨t, FixedVec.withCapacity α bufLen, bufLen⟩

/-- `PacketTableBufWriter::flush`: when the buffer is non-empty, one
`append_unsized` of its entire contents, then `clear`; otherwise a no-op.
Also returns the batch delivered (if any). -/
def BufWriter.flush (w : BufWriter α) : BufWriter α × List (List α) :=
  if w.buffer.len = 0 then (w, [])
  else
    (⟨PacketTable.appendUnsized w.table w.buffer, w.buffer.clear, w.bufLen⟩,
      [w.buffer.elems])

/-- `check_and_flush`: invoke `flush` when the buffer has reached the
threshold.  The `Nat` counts `flush` invocations. -/
def BufWriter.checkAndFlush (w : BufWriter α) : BufWriter α × List (List α) × Nat :=
  if w.bufLen ≤ w.buffer.len then
    let (w', bs) := w.flush
    (w', bs, 1)
  else (w, [], 0)

/-- `PacketTableBufWriter::push` (also `push_clone`/`push_with`): append to
the buffer, then `check_and_flush`. -/
def BufWriter.push (w : BufWriter α) (x : α) : BufWriter α × List (List α) × Nat :=
  BufWriter.checkAndFlush ⟨w.table, w.buffer.push x, w.bufLen⟩

/-- A sequence of pushes, accumulating the delivered batches and the flush
invocation count. -/
def BufWriter.pushMany : BufWriter α → List α → BufWriter α × List (List α) × Nat
  | w, [] => (w, [], 0)
  | w, x :: xs =>
      let (w1, b1, f1) := w.push x
      let (w2, b2, f2) := BufWriter.pushMany w1 xs
      (w2, b1 ++ b2, f1 + f2)

/-- `Drop for PacketTableBufWriter`: invoke `flush` once on scope exit. -/
def BufWriter.dropFlush (w : BufWriter α) : BufWriter α × List (List α) × Nat :=
  let (w', bs) := w.flush
  (w', bs, 1)

theorem pushMany_no_flush (w : BufWriter α) (xs : List α) (hwf : w.buffer.Wf)
    (h : w.buffer.len + xs.length < w.bufLen) :
    (w.pushMany xs).1.table = w.table ∧
      (w.pushMany xs).1.bufLen = w.bufLen ∧
      (w.pushMany xs).1.buffer.elems = w.buffer.elems ++ xs ∧
      (w.pushMany xs).1.buffer.len = w.buffer.len + xs.length ∧
      (w.pushMany xs).1.buffer.Wf ∧
      (w.pushMany xs).2.1 = [] ∧
      (w.pushMany xs).2.2 = 0 := by
  induction xs generalizing w with
  | nil =>
      refine ⟨rfl, rfl, ?_, rfl, hwf, rfl, rfl⟩
      show w.buffer.elems = w.buffer.elems ++ []
      rw [List.append_nil]
  | cons x xs ih =>
      obtain ⟨hl, he, hw⟩ := FixedVec.push_spec w.buffer hwf x
      have hpush : w.push x = (⟨w.table, w.buffer.push x, w.bufLen⟩, [], 0) := by
        unfold BufWriter.push BufWriter.checkAndFlush
        rw [if_neg (by
          show ¬w.bufLen ≤ (w.buffer.push x).len
          rw [hl]
          simp only [List.length_cons] at h
          omega)]
      have hstep := ih ⟨w.table, w.buffer.push x, w.bufLen⟩ hw (by
        show (w.buffer.push x).len + xs.length < w.bufLen
        rw [hl]
        simp only [List.length_cons] at h
        omega)
      show ((w.pushMany (x :: xs))).1.table = w.table ∧ _
      unfold BufWriter.pushMany
      rw [hpush]
      simp only [List.nil_append, Nat.zero_add]
      obtain ⟨s1, s2, s3, s4, s5, s6, s7⟩ := hstep
      refine ⟨s1, s2, ?_, ?_, s5, s6, s7⟩
      · rw [s3]
        show (w.buffer.push x).elems ++ xs = w.buffer.elems ++ x :: xs
        rw [he, List.append_assoc]
        rfl
      · rw [s4, hl, List.length_cons]
        omega

theorem pushMany_fill (w : BufWriter α) (xs : List α) (hwf : w.buffer.Wf)
    (hne : xs ≠ []) (h : w.buffer.len + xs.length = w.bufLen) :
    (w.pushMany xs).1.table = PacketTable.append w.table (w.buffer.elems ++ xs) ∧
      (w.pushMany xs).1.bufLen = w.bufLen ∧
      (w.pushMany xs).1.buffer.len = 0 ∧
      (w.pushMany xs).1.buffer.elems = [] ∧
      (w.pushMany xs).1.buffer.Wf ∧
      (w.pushMany xs).2.1 = [w.buffer.elems ++ xs] ∧
      (w.pushMany xs).2.2 = 1 := by
  induction xs generalizing w with
  | nil => exact absurd rfl hne
  | cons x xs ih =>
      obtain ⟨hl, he, hw⟩ := FixedVec.push_spec w.buffer hwf x
      cases xs with
      | nil =>
          have hlen : (w.buffer.push x).len = w.bufLen := by
            rw [hl]
            simp only [List.length_cons, List.length_nil] at h
            omega
          have hflush : BufWriter.flush ⟨w.table, w.buffer.push x, w.bufLen⟩ =
              (⟨PacketTable.appendUnsized w.table (w.buffer.push x),
                (w.buffer.push x).clear, w.bufLen⟩, [(w.buffer.push x).elems]) := by
            unfold BufWriter.flush
            rw [if_neg (by
              show ¬(w.buffer.push x).len = 0
              rw [hlen]
              simp only [List.length_cons, List.length_nil] at h
              omega)]
          have hpush : w.push x =
              (⟨PacketTable.appendUnsized w.table (w.buffer.push x),
                (w.buffer.push x).clear, w.bufLen⟩, [(w.buffer.push x).elems], 1) := by
            unfold BufWriter.push BufWriter.checkAndFlush
            rw [if_pos (by
              show w.bufLen ≤ (w.buffer.push x).len
              rw [hlen])]
            rw [hflush]
          show ((w.pushMany [x])).1.table = _ ∧ _
          unfold BufWriter.pushMany BufWriter.pushMany
          rw [hpush]
          refine ⟨?_, rfl, FixedVec.len_clear _, FixedVec.elems_clear _,
            FixedVec.wf_clear _, ?_, rfl⟩
          · show PacketTable.appendUnsized w.table (w.buffer.push x) =
                PacketTable.append w.table (w.buffer.elems ++ [x])
            unfold PacketTable.appendUnsized PacketTable.append
            rw [he]
          · show [(w.buffer.push x).elems] ++ [] = [w.buffer.elems ++ [x]]
            rw [List.append_nil, he]
      | cons y ys =>
          have hpush : w.push x = (⟨w.table, w.buffer.push x, w.bufLen⟩, [], 0) := by
            unfold BufWriter.push BufWriter.checkAndFlush
            rw [if_neg (by
              show ¬w.bufLen ≤ (w.buffer.push x).len
              rw [hl]
              simp only [List.length_cons] at h
              omega)]
          have hstep := ih ⟨w.table, w.buffer.push x, w.bufLen⟩ hw
            (List.cons_ne_nil y ys) (by
              show (w.buffer.push x).len + (y :: ys).length = w.bufLen
              rw [hl]
              simp only [List.length_cons] at h ⊢
              omega)
          show ((w.pushMany (x :: y :: ys))).1.table = _ ∧ _
          unfold BufWriter.pushMany
          rw [hpush]
          simp only [List.nil_append, Nat.zero_add]
          obtain ⟨s1, s2, s3, s4, s5, s6, s7⟩ := hstep
          have hassoc : (w.buffer.push x).elems ++ y :: ys = w.buffer.elems ++ x :: y :: ys := by
            rw [he, List.append_assoc]
            rfl
          refine ⟨?_, s2, s3, s4, s5, ?_, s7⟩
          · rw [s1]
            show PacketTable.append w.table ((w.buffer.push x).elems ++ y :: ys) = _
            rw [hassoc]
          · rw [s6, hassoc]

/-- C6: for a `PacketTableBufWriter` with threshold `buf_len ≥ 1` on a fresh
buffer, pushing exactly `buf_len` records triggers exactly one flush — one
`append_unsized` call delivering all `buf_len` records — leaving zero
records buffered; pushing `buf_len - 1` records triggers zero flushes, and
the drop-time `flush` then runs exactly once and delivers every buffered
record to the table, so none is silently dropped. -/
theorem spec_c6_buffered_flush (t : PTState α) (n : Nat) (hn : 1 ≤ n)
    (xs ys : List α) (hx : xs.length = n) (hy : ys.length = n - 1) :
    ((BufWriter.new t n).pushMany xs).2.2 = 1 ∧
      ((BufWriter.new t n).pushMany xs).2.1 = [xs] ∧
      ((BufWriter.new t n).pushMany xs).1.buffer.len = 0 ∧
      ((BufWriter.new t n).pushMany xs).1.table = PacketTable.append t xs ∧
      ((BufWriter.new t n).pushMany ys).2.2 = 0 ∧
      ((BufWriter.new t n).pushMany ys).2.1 = [] ∧
      ((BufWriter.new t n).pushMany ys).1.buffer.elems = ys ∧
      (((BufWriter.new t n).pushMany ys).1.dropFlush).2.2 = 1 ∧
      (((BufWriter.new t n).pushMany ys).1.dropFlush).1.table.records =
        t.records ++ ys ∧
      (((BufWriter.new t n).pushMany ys).1.dropFlush).1.buffer.len = 0 := by
  have hwf0 : (BufWriter.new t n).buffer.Wf := FixedVec.wf_withCapacity α n
  have hxs_ne : xs ≠ [] := by
    intro hcontra
    rw [hcontra] at hx
    simp at hx
    omega
  obtain ⟨a1, _, a3, a4, _, a6, a7⟩ := pushMany_fill (BufWriter.new t n) xs hwf0 hxs_ne
    (by
      show (FixedVec.withCapacity α n).len + xs.length = n
      rw [FixedVec.len_withCapacity, hx, Nat.zero_add])
  obtain ⟨b1, _, b3, b4, b5, b6, b7⟩ := pushMany_no_flush (BufWriter.new t n) ys hwf0
    (by
      show (FixedVec.withCapacity α n).len + ys.length < n
      rw [FixedVec.len_withCapacity, hy, Nat.zero_add]
      omega)
  have hbelems : ((BufWriter.new t n).pushMany ys).1.buffer.elems = ys := by
    rw [b3]
    show (FixedVec.withCapacity α n).elems ++ ys = ys
    rw [FixedVec.elems_withCapacity, List.nil_append]
  have hblen : ((BufWriter.new t n).pushMany ys).1.buffer.len = ys.length := by
    rw [b4]
    show (FixedVec.withCapacity α n).len + ys.length = ys.length
    rw [FixedVec.len_withCapacity, Nat.zero_add]
  refine ⟨a7, ?_, a3, ?_, b7, b6, hbelems, rfl, ?_, ?_⟩
  · rw [a6]
    show [(FixedVec.withCapacity α n).elems ++ xs] = [xs]
    rw [FixedVec.elems_withCapacity, List.nil_append]
  · rw [a1]
    show PacketTable.append (BufWriter.new t n).table
        ((FixedVec.withCapacity α n).elems ++ xs) = PacketTable.append t xs
    rw [FixedVec.elems_withCapacity, List.nil_append]
    rfl
  · show ((((BufWriter.new t n).pushMany ys).1.flush).1).table.records = t.records ++ ys
    unfold BufWriter.flush
    by_cases hz : ((BufWriter.new t n).pushMany ys).1.buffer.len = 0
    · rw [if_pos hz]
      have hys : ys = [] := by
        rw [hblen] at hz
        exact List.length_eq_zero.mp hz
      rw [b1, hys, List.append_nil]
      rfl
    · rw [if_neg hz]
      show (((BufWriter.new t n).pushMany ys).1).table.records ++
          (((BufWriter.new t n).pushMany ys).1).buffer.elems = t.records ++ ys
      rw [b1, hbelems]
      rfl
  · show ((((BufWriter.new t n).pushMany ys).1.flush).1).buffer.len = 0
    unfold BufWriter.flush
    by_cases hz : ((BufWriter.new t n).pushMany ys).1.buffer.len = 0
    · rw [if_pos hz]
      exact hz
    · rw [if_neg hz]
      exact FixedVec.len_clear _

/-- C6 witness: threshold 3; pushing three records flushes once with all
three; pushing two records flushes never, and the drop-time flush delivers
both. -/
theorem spec_c6_buffered_flush_witness :
    let t : PTState Nat := ⟨[], 0⟩
    ((BufWriter.new t 3).pushMany [10, 20, 30]).2.2 = 1 ∧
      ((BufWriter.new t 3).pushMany [10, 20, 30]).2.1 = [[10, 20, 30]] ∧
      ((BufWriter.new t 3).pushMany [10, 20, 30]).1.buffer.len = 0 ∧
      ((BufWriter.new t 3).pushMany [10, 20, 30]).1.table =
        PacketTable.append t [10, 20, 30] ∧
      ((BufWriter.new t 3).pushMany [10, 20]).2.2 = 0 ∧
      ((BufWriter.new t 3).pushMany [10, 20]).2.1 = [] ∧
      ((BufWriter.new t 3).pushMany [10, 20]).1.buffer.elems = [10, 20] ∧
      (((BufWriter.new t 3).pushMany [10, 20]).1.dropFlush).2.2 = 1 ∧
      (((BufWriter.new t 3).pushMany [10, 20]).1.dropFlush).1.table.records =
        t.records ++ [10, 20] ∧
      (((BufWriter.new t 3).pushMany [10, 20]).1.dropFlush).1.buffer.len = 0 :=
  spec_c6_buffered_flush ⟨[], 0⟩ 3 (by decide) [10, 20, 30] [10, 20] rfl rfl

end Hdf5Ext
